import Mathlib

/-!
Verification of the pennylane-qiskit circuit converter and IBMQ connector.

The converter (`load`, `load_qasm`, `map_wires`) is modelled from the
natural-language specification, since only its test suite ships in this
repository snapshot; the IBMQ `connect` function is embedded directly from
`pennylane_qiskit/ibmq.py`.
-/

namespace PennylaneQiskit

/-- Association-list lookup with decidable key equality; models Python
dictionary access `d[k]` (first matching key wins). -/
def alookup {α β : Type} [DecidableEq α] (k : α) : List (α × β) → Option β
  | [] => none
  | (a, b) :: rest => if a = k then some b else alookup k rest

/-- Models Python `d[k] = v`: overwrite the value when the key is present,
append otherwise (insertion order of first occurrence is kept). -/
def dictInsert {α β : Type} [DecidableEq α] (d : List (α × β)) (k : α) (v : β) :
    List (α × β) :=
  if k ∈ d.map Prod.fst then
    d.map (fun p => if p.1 = k then (k, v) else p)
  else d ++ [(k, v)]

/-- Models Python `dict(pairs)`: fold the pair list into a dictionary. -/
def dictOf {α β : Type} [DecidableEq α] (ps : List (α × β)) : List (α × β) :=
  ps.foldl (fun d p => dictInsert d p.1 p.2) []

/-- Modelled from the spec: a qiskit `ParameterExpression`, "a symbolic value
that must be fully substituted before emission".  Expression trees are built
from rational constants, named parameters, sums, products and cosines (the
operations exercised by the repository's tests, e.g. `a * cos(b) + c`). -/
inductive Expr : Type
  | const : ℚ → Expr
  | param : String → Expr
  | add : Expr → Expr → Expr
  | mul : Expr → Expr → Expr
  | cosE : Expr → Expr
deriving DecidableEq

/-- Modelled from the spec: parameter binding (`bind_parameters` / the
`params` argument of the loaded template).  Every parameter occurring in the
binding is replaced by its bound constant; unbound parameters stay symbolic. -/
def Expr.subst (b : List (String × ℚ)) : Expr → Expr
  | const q => const q
  | param p =>
      match alookup p b with
      | some v => const v
      | none => param p
  | add e₁ e₂ => add (subst b e₁) (subst b e₂)
  | mul e₁ e₂ => mul (subst b e₁) (subst b e₂)
  | cosE e => cosE (subst b e)

/-- Free (still unbound) parameters of an expression, in left-to-right order. -/
def Expr.freeParams : Expr → List String
  | const _ => []
  | param _p => [_p]
  | add e₁ e₂ => e₁.freeParams ++ e₂.freeParams
  | mul e₁ e₂ => e₁.freeParams ++ e₂.freeParams
  | cosE e => e.freeParams

/-- Numeric evaluation of an expression in any field equipped with a cosine
function, under an environment assigning values to parameters.  This is the
semantics against which "resolves symbolic parameters" is checked. -/
def Expr.evalA {α : Type} [Field α] (cosF : α → α) (env : String → α) : Expr → α
  | const q => (q : α)
  | param p => env p
  | add e₁ e₂ => evalA cosF env e₁ + evalA cosF env e₂
  | mul e₁ e₂ => evalA cosF env e₁ * evalA cosF env e₂
  | cosE e => cosF (evalA cosF env e)

/-- The environment obtained by overriding `env` with the bound values of a
binding `b` (bound parameters read their bound constant, others fall back). -/
def bindEnv {α : Type} [Field α] (b : List (String × ℚ)) (env : String → α)
    (p : String) : α :=
  match alookup p b with
  | some v => (v : α)
  | none => env p

/-- Modelled from the spec: an "Instruction: opaque source-framework gate
descriptor (name, symbolic or bound parameters, ordered qubit operands)".
Qubit operands are indices into the circuit's qubit list. -/
structure Instruction : Type where
  name : String
  params : List Expr
  qubits : List Nat
deriving DecidableEq

/-- Modelled from the spec: a source-framework `QuantumCircuit` as the
converter consumes it — a number of qubits and an ordered instruction list. -/
structure QuantumCircuit : Type where
  numQubits : Nat
  instructions : List Instruction
deriving DecidableEq

/-- A target-framework operation as recorded on the tape/queue: a
(operation-name, parameter-list, wire-list) triple per the spec's interface
for the receiving framework. -/
structure Op : Type where
  name : String
  params : List Expr
  wires : List Int
deriving DecidableEq

/-- The two fatal error kinds the converter raises: `ValueError` for an
unresolved parameter substitution and `QuantumFunctionError` for a wire
count mismatch. -/
inductive ConvError : Type
  | valueError (msg : String)
  | quantumFunctionError (msg : String)
deriving DecidableEq

/-- Modelled from the spec: the converter's "static name table" from source
instruction names to target operation names, as fixed by the repository's
test suite (including the adjoint variants `sdg`, `tdg`, `sxdg`). -/
def name_table : List (String × String) :=
  [("x", "PauliX"), ("y", "PauliY"), ("z", "PauliZ"), ("h", "Hadamard"),
   ("s", "S"), ("t", "T"), ("sx", "SX"), ("id", "Identity"),
   ("cx", "CNOT"), ("cz", "CZ"), ("swap", "SWAP"), ("iswap", "ISWAP"),
   ("rx", "RX"), ("ry", "RY"), ("rz", "RZ"), ("p", "PhaseShift"),
   ("u", "U3"), ("u1", "U1"), ("u2", "U2"), ("u3", "U3"),
   ("crx", "CRX"), ("cry", "CRY"), ("crz", "CRZ"),
   ("rxx", "IsingXX"), ("ryy", "IsingYY"), ("rzz", "IsingZZ"),
   ("cswap", "CSWAP"), ("ccx", "Toffoli"),
   ("sdg", "Adjoint(S)"), ("tdg", "Adjoint(T)"), ("sxdg", "Adjoint(SX)")]

/-- An instruction is natively supported when its name has an entry in the
table.  An instruction outside the table is not skipped outright: when its
descriptor defines a matrix it is re-emitted as a `QubitUnitary` operation
(see `has_matrix` and `emitLoop`); only matrix-less instructions fall
through to the warn-and-skip path. -/
def supported (i : Instruction) : Bool :=
  (alookup i.name name_table).isSome

/-- Modelled from the repository's tests: the instruction names whose
descriptors define no unitary matrix (`op.to_matrix()` raises), i.e. the
directives and non-unitary instructions.  These are the only instructions
the converter warns about and skips; every gate instruction defines a
matrix.  (The dedicated state-preparation path for `initialize`, which the
tests translate to QubitStateVector, is exercised by no claim and is left
on the warn-and-skip side here.) -/
def matrixless : List String :=
  ["barrier", "measure", "reset", "snapshot", "delay", "initialize"]

/-- Whether a source instruction name defines a unitary matrix. -/
def has_matrix (nm : String) : Bool :=
  ! matrixless.contains nm

/-- The wire-count mismatch message raised by `map_wires` (and surfaced by
the loaded template). -/
def wiresMismatchMsg (n : Nat) : String :=
  "The specified number of wires - " ++ toString n ++
    " - does not match the number of wires the loaded quantum circuit acts on."

/-- The unresolved-parameter message raised by the loaded template. -/
def notBoundMsg (p : String) : String :=
  "The parameter " ++ p ++ " was not bound correctly."

/-- The warning emitted for an instruction absent from the name table. -/
def notSupportedMsg (nm : String) : String :=
  "pennylane_qiskit.converter: The " ++ nm ++
    " instruction is not supported by PennyLane, and has not been added to the template."

/-- Modelled from the spec: the "Wire Mapper" utility `map_wires`, which
"aligns the source circuit's internal qubit identifiers with the
caller-supplied wire labels, validating count equality".  The first list
becomes the dictionary's keys and the second its values (positionally, with
Python `dict(zip(...))` semantics); on a length mismatch it raises
`QuantumFunctionError` quoting the length of the second list, as the
repository's tests require. -/
def map_wires {α β : Type} [DecidableEq α] (qc_wires : List α) (wires : List β) :
    Except ConvError (List (α × β)) :=
  if qc_wires.length = wires.length then
    .ok (dictOf (qc_wires.zip wires))
  else
    .error (.quantumFunctionError (wiresMismatchMsg wires.length))

/-- The circuit's own qubit identifiers, in circuit order `0, 1, ...`. -/
def defaultWires (n : Nat) : List Int :=
  (List.range n).map Int.ofNat

/-- The qubit identifiers of a circuit, used as default wire labels. -/
def qcWires (qc : QuantumCircuit) : List Int :=
  defaultWires qc.numQubits

/-- Substitute a binding into every parameter expression of an instruction. -/
def bindInstruction (b : List (String × ℚ)) (i : Instruction) : Instruction :=
  { i with params := i.params.map (Expr.subst b) }

/-- Modelled from the spec: `QuantumCircuit.bind_parameters` — binding the
parameters of a circuit before it is loaded. -/
def bind_parameters (qc : QuantumCircuit) (b : List (String × ℚ)) : QuantumCircuit :=
  { qc with instructions := qc.instructions.map (bindInstruction b) }

/-- First free parameter among a list of expressions, if any. -/
def firstUnboundExpr : List Expr → Option String
  | [] => none
  | e :: rest =>
      match e.freeParams with
      | [] => firstUnboundExpr rest
      | p :: _ => some p

/-- First free parameter among an instruction list, if any: the parameter
reported by the converter's unresolved-substitution error. -/
def firstUnbound : List Instruction → Option String
  | [] => none
  | i :: rest =>
      match firstUnboundExpr i.params with
      | some p => some p
      | none => firstUnbound rest

/-- Map one source qubit index through the wire dictionary. -/
def mapWire (wm : List (Int × Int)) (q : Nat) : Int :=
  (alookup (Int.ofNat q) wm).getD 0

/-- Translate one supported instruction into a target operation: look the
name up in the table, keep the (already substituted) parameters, and map
each qubit operand through the wire dictionary in order. -/
def translateInst (wm : List (Int × Int)) (i : Instruction) : Op :=
  { name := (alookup i.name name_table).getD ""
    params := i.params
    wires := i.qubits.map (mapWire wm) }

/-- Modelled from the repository's tests (`ch` is loaded as a
`QubitUnitary` with one parameter on its operand wires): an instruction
outside the name table whose descriptor defines a matrix is re-emitted as
a single `QubitUnitary` operation.  The numeric matrix payload
(`op.to_matrix()`) lies outside this model's scalar expression language;
it is represented by one opaque parameter naming the source gate, which
preserves the operation's one-parameter arity. -/
def qubitUnitaryInst (wm : List (Int × Int)) (i : Instruction) : Op :=
  { name := "QubitUnitary"
    params := [Expr.param ("matrix:" ++ i.name)]
    wires := i.qubits.map (mapWire wm) }

/-- Translate one convertible instruction: by the name table when it has
an entry, by matrix conversion otherwise. -/
def translateAny (wm : List (Int × Int)) (i : Instruction) : Op :=
  if supported i then translateInst wm i else qubitUnitaryInst wm i

/-- An instruction the walk emits an operation for: either table-supported
or matrix-convertible. -/
def convertible (i : Instruction) : Bool :=
  supported i || has_matrix i.name

/-- Modelled from the spec and the tests: the converter's walk over the
instruction list.  A table-supported instruction appends its translated
operation to the queue; an instruction outside the table whose descriptor
defines a matrix appends a `QubitUnitary` operation; a matrix-less
instruction appends a warning instead and emits nothing. -/
def emitLoop (wm : List (Int × Int)) :
    List Instruction → List Op → List String → List Op × List String
  | [], queue, warns => (queue, warns)
  | i :: rest, queue, warns =>
      if supported i then
        emitLoop wm rest (queue ++ [translateInst wm i]) warns
      else if has_matrix i.name then
        emitLoop wm rest (queue ++ [qubitUnitaryInst wm i]) warns
      else
        emitLoop wm rest queue (warns ++ [notSupportedMsg i.name])

/-- Modelled from the spec: invoking the template returned by `load` inside a
recording context.  `params` is the call's binding, `wires` the optional
caller-supplied wire labels, `queue` the operations already recorded.  The
call validates the wire count through `map_wires`, requires every parameter
expression to be fully substituted before any operation is emitted, and then
re-emits the translated operation sequence onto the queue (table-supported
instructions by name, other matrix-defining instructions as QubitUnitary),
returning the new queue together with the warnings for the matrix-less
instructions that were skipped. -/
def invoke (qc : QuantumCircuit) (params : List (String × ℚ))
    (wires : Option (List Int)) (queue : List Op) :
    Except ConvError (List Op × List String) :=
  let w := wires.getD (qcWires qc)
  match map_wires (qcWires qc) w with
  | .error e => .error e
  | .ok wm =>
      let insts := qc.instructions.map (bindInstruction params)
      match firstUnbound insts with
      | some p => .error (.valueError (notBoundMsg p))
      | none => .ok (emitLoop wm insts queue [])

/-- The wire dictionary `invoke` builds when no custom wires are passed. -/
def defaultWireMap (qc : QuantumCircuit) : List (Int × Int) :=
  dictOf ((qcWires qc).zip (qcWires qc))

/- ## IBMQ connector, embedded from `pennylane_qiskit/ibmq.py` -/

/-- The keyword arguments `connect` reads: `kwargs.get("ibmqx_token", None)`
and `kwargs.get("ibmqx_url", None)`; `none` models an absent key. -/
structure IBMQKwargs : Type where
  ibmqx_token : Option String
  ibmqx_url : Option String
deriving DecidableEq

/-- The environment variables `connect` reads via `os.getenv`. -/
structure IBMQEnv : Type where
  token_var : Option String
  url_var : Option String
deriving DecidableEq

/-- The IBMQ account-manager state: the token of the currently active
account (`IBMQ.active_account()`, `none` when no account is active) and the
token of the account stored on disk (`none` when `IBMQ.load_account()`
raises `IBMQAccountError`). -/
structure IBMQState : Type where
  active : Option String
  stored : Option String
deriving DecidableEq

/-- Python truthiness of an optional string: `None` and `""` are falsy. -/
def truthy : Option String → Bool
  | none => false
  | some s => s ≠ ""

/-- Python's `a or b` on optional strings, as in
`kwargs.get("ibmqx_token", None) or os.getenv("IBMQX_TOKEN")`. -/
def pyOr (a b : Option String) : Option String :=
  if truthy a then a else b

/-- `IBMQ.enable_account(token, ...)`: the account becomes active. -/
def enable_account (token : String) (st : IBMQState) : IBMQState :=
  { st with active := some token }

/-- `IBMQ.disable_account()`: no account is active afterwards. -/
def disable_account (st : IBMQState) : IBMQState :=
  { st with active := none }

/-- The error message `connect` raises when no account can be activated. -/
def noAccountMsg : String :=
  "No active IBM Q account, and no IBM Q token provided."

/-- Embedding of `connect` from `pennylane_qiskit/ibmq.py` (lines 99-143):
resolve the token and url with Python `or` semantics; when the token is
truthy, enable it (disabling a differently-tokened active account first and
doing nothing when the active token already matches); otherwise keep an
already active account, or fall back to the account stored on disk, and
raise `IBMQAccountError` when that load fails too. -/
def connect (kw : IBMQKwargs) (env : IBMQEnv) (st : IBMQState) :
    Except String IBMQState :=
  let token := pyOr kw.ibmqx_token env.token_var
  let _url := pyOr kw.ibmqx_url env.url_var
  if truthy token then
    let t := token.getD ""
    match st.active with
    | none => .ok (enable_account t st)
    | some a => if a = t then .ok st else .ok (enable_account t (disable_account st))
  else
    match st.active with
    | some _ => .ok st
    | none =>
        match st.stored with
        | some t => .ok { st with active := some t }
        | none => .error noAccountMsg

/- ## Helper lemmas -/

theorem dictInsert_of_notMem {α β : Type} [DecidableEq α] (d : List (α × β))
    (k : α) (v : β) (h : k ∉ d.map Prod.fst) :
    dictInsert d k v = d ++ [(k, v)] := by
  simp [dictInsert, h]

theorem dictOf_go {α β : Type} [DecidableEq α] (ps : List (α × β)) :
    ∀ acc : List (α × β), (acc.map Prod.fst ++ ps.map Prod.fst).Nodup →
      ps.foldl (fun d p => dictInsert d p.1 p.2) acc = acc ++ ps := by
  induction ps with
  | nil => intro acc _; simp
  | cons p rest ih =>
      intro acc h
      have h₁ : (p.1 :: (acc.map Prod.fst ++ rest.map Prod.fst)).Nodup := by
        exact List.nodup_middle.mp (by simpa using h)
      have hk : p.1 ∉ acc.map Prod.fst := by
        have := (List.nodup_cons.mp h₁).1
        intro hc
        exact this (List.mem_append.mpr (Or.inl hc))
      have h₂ : ((acc ++ [p]).map Prod.fst ++ rest.map Prod.fst).Nodup := by
        simpa using h
      calc (p :: rest).foldl (fun d q => dictInsert d q.1 q.2) acc
          = rest.foldl (fun d q => dictInsert d q.1 q.2) (dictInsert acc p.1 p.2) := by
            simp
        _ = rest.foldl (fun d q => dictInsert d q.1 q.2) (acc ++ [p]) := by
            rw [dictInsert_of_notMem acc p.1 p.2 hk]
        _ = (acc ++ [p]) ++ rest := ih (acc ++ [p]) h₂
        _ = acc ++ p :: rest := by simp

theorem dictOf_of_nodup_keys {α β : Type} [DecidableEq α] (ps : List (α × β))
    (h : (ps.map Prod.fst).Nodup) : dictOf ps = ps := by
  have := dictOf_go ps [] (by simpa using h)
  simpa [dictOf] using this

theorem alookup_zip_pos {α β : Type} [DecidableEq α] :
    ∀ (ks : List α) (vs : List β), ks.Nodup →
      ∀ (k : Nat) (a : α) (b : β), ks[k]? = some a → vs[k]? = some b →
        alookup a (ks.zip vs) = some b := by
  intro ks
  induction ks with
  | nil => intro vs _ k a b ha; simp at ha
  | cons x ks ih =>
      intro vs hnd k a b ha hb
      cases vs with
      | nil => simp at hb
      | cons y vs =>
          cases k with
          | zero =>
              simp at ha hb
              subst ha; subst hb
              simp [alookup]
          | succ k =>
              simp at ha hb
              have hmem : a ∈ ks := by
                exact List.getElem?_mem ha
              have hne : x ≠ a := by
                intro hc
                subst hc
                exact (List.nodup_cons.mp hnd).1 hmem
              simp only [List.zip_cons_cons, alookup]
              rw [if_neg hne]
              exact ih vs (List.nodup_cons.mp hnd).2 k a b ha hb

theorem length_defaultWires (n : Nat) : (defaultWires n).length = n := by
  simp [defaultWires]

theorem nodup_defaultWires (n : Nat) : (defaultWires n).Nodup := by
  refine List.Nodup.map ?_ (List.nodup_range n)
  intro a b h
  exact Int.ofNat_inj.mp h

theorem getElem?_defaultWires (n q : Nat) (hq : q < n) :
    (defaultWires n)[q]? = some (Int.ofNat q) := by
  simp [defaultWires, List.getElem?_map, List.getElem?_range hq]

theorem length_qcWires (qc : QuantumCircuit) : (qcWires qc).length = qc.numQubits := by
  simp [qcWires, length_defaultWires]

theorem mapWire_of_zip (n : Nat) (ws : List Int) (hlen : ws.length = n)
    (q : Nat) (hq : q < n) (w : Int) (hw : ws[q]? = some w) :
    mapWire (dictOf ((defaultWires n).zip ws)) q = w := by
  have hkeys : (((defaultWires n).zip ws).map Prod.fst).Nodup := by
    rw [List.map_fst_zip]
    · exact nodup_defaultWires n
    · rw [length_defaultWires, hlen]
  rw [mapWire, dictOf_of_nodup_keys _ hkeys]
  rw [alookup_zip_pos (defaultWires n) ws (nodup_defaultWires n) q (Int.ofNat q) w
    (getElem?_defaultWires n q hq) hw]
  rfl

theorem emitLoop_char (wm : List (Int × Int)) (insts : List Instruction) :
    ∀ (queue : List Op) (warns : List String),
      emitLoop wm insts queue warns =
        (queue ++ (insts.filter convertible).map (translateAny wm),
         warns ++ (insts.filter (fun i => ! convertible i)).map
            (fun i => notSupportedMsg i.name)) := by
  induction insts with
  | nil => intro queue warns; simp [emitLoop]
  | cons i rest ih =>
      intro queue warns
      by_cases h : supported i = true
      · have hc : convertible i = true := by simp [convertible, h]
        have ht : translateAny wm i = translateInst wm i := by simp [translateAny, h]
        simp [emitLoop, h, hc, ht, ih, List.filter_cons]
      · have h₂ : supported i = false := by simpa using h
        by_cases hm : has_matrix i.name = true
        · have hc : convertible i = true := by simp [convertible, h₂, hm]
          have ht : translateAny wm i = qubitUnitaryInst wm i := by simp [translateAny, h₂]
          simp [emitLoop, h₂, hm, hc, ht, ih, List.filter_cons]
        · have hm₂ : has_matrix i.name = false := by simpa using hm
          have hc : convertible i = false := by simp [convertible, h₂, hm₂]
          simp [emitLoop, h₂, hm₂, hc, ih, List.filter_cons]

theorem firstUnboundExpr_eq_none (es : List Expr) :
    firstUnboundExpr es = none ↔ ∀ e ∈ es, e.freeParams = [] := by
  induction es with
  | nil => simp [firstUnboundExpr]
  | cons e rest ih =>
      cases hfp : e.freeParams with
      | nil => simp [firstUnboundExpr, hfp, ih]
      | cons p ps => simp [firstUnboundExpr, hfp]

theorem firstUnbound_eq_none (l : List Instruction) :
    firstUnbound l = none ↔ ∀ i ∈ l, ∀ e ∈ i.params, e.freeParams = [] := by
  induction l with
  | nil => simp [firstUnbound]
  | cons i rest ih =>
      cases hfe : firstUnboundExpr i.params with
      | some p => simp [firstUnbound, hfe, (firstUnboundExpr_eq_none i.params).not]
                  intro hall
                  have : firstUnboundExpr i.params = none :=
                    (firstUnboundExpr_eq_none i.params).mpr hall
                  simp [hfe] at this
      | none =>
          simp [firstUnbound, hfe, ih]
          intro _
          exact (firstUnboundExpr_eq_none i.params).mp hfe

theorem firstUnboundExpr_some (es : List Expr) (p : String)
    (h : firstUnboundExpr es = some p) : ∃ e ∈ es, p ∈ e.freeParams := by
  induction es with
  | nil => simp [firstUnboundExpr] at h
  | cons e rest ih =>
      cases hfp : e.freeParams with
      | nil =>
          simp [firstUnboundExpr, hfp] at h
          obtain ⟨e₂, he₂, hp⟩ := ih h
          exact ⟨e₂, List.mem_cons_of_mem _ he₂, hp⟩
      | cons q qs =>
          simp [firstUnboundExpr, hfp] at h
          subst h
          exact ⟨e, List.mem_cons_self _ _, by simp [hfp]⟩

theorem firstUnbound_some (l : List Instruction) (p : String)
    (h : firstUnbound l = some p) : ∃ i ∈ l, ∃ e ∈ i.params, p ∈ e.freeParams := by
  induction l with
  | nil => simp [firstUnbound] at h
  | cons i rest ih =>
      cases hfe : firstUnboundExpr i.params with
      | some q =>
          simp [firstUnbound, hfe] at h
          obtain ⟨e, he, hp⟩ := firstUnboundExpr_some i.params q hfe
          exact ⟨i, List.mem_cons_self _ _, e, he, h ▸ hp⟩
      | none =>
          simp [firstUnbound, hfe] at h
          obtain ⟨i₂, hi₂, e, he, hp⟩ := ih h
          exact ⟨i₂, List.mem_cons_of_mem _ hi₂, e, he, hp⟩

theorem Expr.subst_nil (e : Expr) : e.subst [] = e := by
  induction e with
  | const q => rfl
  | param p => rfl
  | add e₁ e₂ ih₁ ih₂ => simp [Expr.subst, ih₁, ih₂]
  | mul e₁ e₂ ih₁ ih₂ => simp [Expr.subst, ih₁, ih₂]
  | cosE e ih => simp [Expr.subst, ih]

theorem Expr.evalA_subst {α : Type} [Field α] (cosF : α → α) (env : String → α)
    (b : List (String × ℚ)) (e : Expr) :
    (e.subst b).evalA cosF env = e.evalA cosF (bindEnv b env) := by
  induction e with
  | const q => rfl
  | param p =>
      cases h : alookup p b with
      | none => simp [Expr.subst, h, Expr.evalA, bindEnv]
      | some v => simp [Expr.subst, h, Expr.evalA, bindEnv]
  | add e₁ e₂ ih₁ ih₂ => simp [Expr.subst, Expr.evalA, ih₁, ih₂]
  | mul e₁ e₂ ih₁ ih₂ => simp [Expr.subst, Expr.evalA, ih₁, ih₂]
  | cosE e ih => simp [Expr.subst, Expr.evalA, ih]

theorem supported_bindInstruction (b : List (String × ℚ)) (i : Instruction) :
    supported (bindInstruction b i) = supported i := rfl

theorem name_bindInstruction (b : List (String × ℚ)) (i : Instruction) :
    (bindInstruction b i).name = i.name := rfl

theorem bindInstruction_nil (i : Instruction) : bindInstruction [] i = i := by
  have : i.params.map (Expr.subst []) = i.params := by
    rw [List.map_congr_left (fun e _ => Expr.subst_nil e)]
    simp
  simp [bindInstruction, this]

theorem map_wires_ok {α β : Type} [DecidableEq α] (ks : List α) (vs : List β)
    (h : ks.length = vs.length) :
    map_wires ks vs = .ok (dictOf (ks.zip vs)) := by
  simp [map_wires, h]

theorem convertible_bindInstruction (b : List (String × ℚ)) (i : Instruction) :
    convertible (bindInstruction b i) = convertible i := rfl

theorem filter_convertible_map_bind (b : List (String × ℚ)) (l : List Instruction) :
    (l.map (bindInstruction b)).filter convertible
      = (l.filter convertible).map (bindInstruction b) := by
  rw [List.filter_map]
  have h₁ : (convertible ∘ bindInstruction b) = convertible := by
    funext i; rfl
  rw [h₁]

theorem warnings_map_bind (b : List (String × ℚ)) (l : List Instruction) :
    ((l.map (bindInstruction b)).filter (fun i => ! convertible i)).map
        (fun i => notSupportedMsg i.name)
      = (l.filter (fun i => ! convertible i)).map (fun i => notSupportedMsg i.name) := by
  rw [List.filter_map, List.map_map]
  have h₁ : ((fun i => ! convertible i) ∘ bindInstruction b) = (fun i => ! convertible i) := by
    funext i; rfl
  have h₂ : ((fun i : Instruction => notSupportedMsg i.name) ∘ bindInstruction b)
      = (fun i : Instruction => notSupportedMsg i.name) := by
    funext i; rfl
  rw [h₁, h₂]

theorem firstUnbound_none_of_bound (qc : QuantumCircuit) (b : List (String × ℚ))
    (hb : ∀ i ∈ qc.instructions, ∀ e ∈ i.params, (e.subst b).freeParams = []) :
    firstUnbound (qc.instructions.map (bindInstruction b)) = none := by
  refine (firstUnbound_eq_none _).mpr ?_
  intro i hi e he
  obtain ⟨i₀, hi₀, rfl⟩ := List.mem_map.mp hi
  have : e ∈ i₀.params.map (Expr.subst b) := by simpa [bindInstruction] using he
  obtain ⟨e₀, he₀, rfl⟩ := List.mem_map.mp this
  exact hb i₀ hi₀ e₀ he₀

theorem invoke_char (qc : QuantumCircuit) (b : List (String × ℚ))
    (wopt : Option (List Int)) (queue : List Op)
    (hw : (wopt.getD (qcWires qc)).length = qc.numQubits)
    (hb : ∀ i ∈ qc.instructions, ∀ e ∈ i.params, (e.subst b).freeParams = []) :
    invoke qc b wopt queue = .ok
      (queue ++ (qc.instructions.filter convertible).map
        (fun i => translateAny (dictOf ((qcWires qc).zip (wopt.getD (qcWires qc))))
          (bindInstruction b i)),
       (qc.instructions.filter (fun i => ! convertible i)).map
        (fun i => notSupportedMsg i.name)) := by
  have hlen : (qcWires qc).length = (wopt.getD (qcWires qc)).length := by
    rw [length_qcWires, hw]
  have hmw := map_wires_ok (qcWires qc) (wopt.getD (qcWires qc)) hlen
  have hfu := firstUnbound_none_of_bound qc b hb
  simp only [invoke, hmw, hfu]
  rw [emitLoop_char]
  rw [filter_convertible_map_bind, warnings_map_bind, List.map_map]
  simp [Function.comp]

theorem invoke_char_supported (qc : QuantumCircuit) (b : List (String × ℚ))
    (wopt : Option (List Int)) (queue : List Op)
    (hw : (wopt.getD (qcWires qc)).length = qc.numQubits)
    (hsup : ∀ i ∈ qc.instructions, supported i = true)
    (hb : ∀ i ∈ qc.instructions, ∀ e ∈ i.params, (e.subst b).freeParams = []) :
    invoke qc b wopt queue = .ok
      (queue ++ qc.instructions.map
        (fun i => translateInst (dictOf ((qcWires qc).zip (wopt.getD (qcWires qc))))
          (bindInstruction b i)), []) := by
  have hch := invoke_char qc b wopt queue hw hb
  have hconv : ∀ i ∈ qc.instructions, convertible i = true := by
    intro i hi
    simp [convertible, hsup i hi]
  rw [List.filter_eq_self.mpr hconv] at hch
  have hwarn : qc.instructions.filter (fun i => ! convertible i) = [] := by
    rw [List.filter_eq_nil_iff]
    intro i hi
    simp [hconv i hi]
  rw [hwarn] at hch
  rw [hch]
  have hmap : qc.instructions.map
      (fun i => translateAny (dictOf ((qcWires qc).zip (wopt.getD (qcWires qc))))
        (bindInstruction b i))
      = qc.instructions.map
      (fun i => translateInst (dictOf ((qcWires qc).zip (wopt.getD (qcWires qc))))
        (bindInstruction b i)) := by
    refine List.map_congr_left ?_
    intro i hi
    have hsi : supported (bindInstruction b i) = true := hsup i hi
    simp [translateAny, hsi]
  rw [hmap]
  simp

/- ## Claims -/

/-- C1: for every source circuit whose instructions are all in the supported
set, calling the template returned by `load` emits exactly one
target-framework operation per source instruction, in the same order as the
source circuit's instruction list, with the operation name given by the
fixed name table (x->PauliX, y->PauliY, z->PauliZ, h->Hadamard, s->S, t->T,
sx->SX, id->Identity, cx->CNOT, cz->CZ, swap->SWAP, iswap->ISWAP, crz->CRZ,
rxx->IsingXX, ryy->IsingYY, rzz->IsingZZ, cswap->CSWAP, ccx->Toffoli). -/
theorem load_emits_one_op_per_instruction_in_order
    (qc : QuantumCircuit) (b : List (String × ℚ))
    (hsup : ∀ i ∈ qc.instructions, supported i = true)
    (hb : ∀ i ∈ qc.instructions, ∀ e ∈ i.params, (e.subst b).freeParams = []) :
    (∃ ops : List Op, invoke qc b none [] = .ok (ops, []) ∧
      ops.length = qc.instructions.length ∧
      ∀ k : Nat, (ops[k]?).map Op.name =
        (qc.instructions[k]?).map (fun i => (alookup i.name name_table).getD "")) ∧
    alookup "x" name_table = some "PauliX" ∧
    alookup "y" name_table = some "PauliY" ∧
    alookup "z" name_table = some "PauliZ" ∧
    alookup "h" name_table = some "Hadamard" ∧
    alookup "s" name_table = some "S" ∧
    alookup "t" name_table = some "T" ∧
    alookup "sx" name_table = some "SX" ∧
    alookup "id" name_table = some "Identity" ∧
    alookup "cx" name_table = some "CNOT" ∧
    alookup "cz" name_table = some "CZ" ∧
    alookup "swap" name_table = some "SWAP" ∧
    alookup "iswap" name_table = some "ISWAP" ∧
    alookup "crz" name_table = some "CRZ" ∧
    alookup "rxx" name_table = some "IsingXX" ∧
    alookup "ryy" name_table = some "IsingYY" ∧
    alookup "rzz" name_table = some "IsingZZ" ∧
    alookup "cswap" name_table = some "CSWAP" ∧
    alookup "ccx" name_table = some "Toffoli" := by
  refine ⟨?_, rfl, rfl, rfl, rfl, rfl, rfl, rfl, rfl, rfl, rfl, rfl, rfl, rfl,
    rfl, rfl, rfl, rfl, rfl⟩
  have hw : ((none : Option (List Int)).getD (qcWires qc)).length = qc.numQubits := by
    simp [length_qcWires]
  have hch := invoke_char_supported qc b none [] hw hsup hb
  refine ⟨_, by simpa using hch, by simp, ?_⟩
  intro k
  rw [List.getElem?_map]
  cases h : qc.instructions[k]? with
  | none => simp
  | some i => simp [translateInst, name_bindInstruction]

/-- C1 witness: a two-instruction circuit (`h` then `cx`). -/
theorem load_emits_one_op_per_instruction_in_order_witness :
    (∃ ops : List Op,
      invoke ⟨2, [⟨"h", [], [0]⟩, ⟨"cx", [], [0, 1]⟩]⟩ [] none [] = .ok (ops, []) ∧
      ops.length = ([⟨"h", [], [0]⟩, ⟨"cx", [], [0, 1]⟩] : List Instruction).length ∧
      ∀ k : Nat, (ops[k]?).map Op.name =
        (([⟨"h", [], [0]⟩, ⟨"cx", [], [0, 1]⟩] : List Instruction)[k]?).map
          (fun i => (alookup i.name name_table).getD "")) :=
  (load_emits_one_op_per_instruction_in_order ⟨2, [⟨"h", [], [0]⟩, ⟨"cx", [], [0, 1]⟩]⟩ []
    (by decide) (by decide)).1

/-- C2: invoking a loaded template while a symbolic parameter is neither
bound in the circuit nor supplied in `params` raises a `ValueError` reading
"The parameter p was not bound correctly." before any operation is
emitted. -/
theorem unbound_parameter_raises_value_error
    (qc : QuantumCircuit) (b : List (String × ℚ)) (wopt : Option (List Int))
    (queue : List Op)
    (hw : (wopt.getD (qcWires qc)).length = qc.numQubits)
    (h : ∃ i ∈ qc.instructions, ∃ e ∈ i.params, (e.subst b).freeParams ≠ []) :
    ∃ p : String,
      (∃ i ∈ qc.instructions, ∃ e ∈ i.params, p ∈ (e.subst b).freeParams) ∧
      invoke qc b wopt queue = .error (.valueError (notBoundMsg p)) := by
  have hlen : (qcWires qc).length = (wopt.getD (qcWires qc)).length := by
    rw [length_qcWires, hw]
  have hmw := map_wires_ok (qcWires qc) (wopt.getD (qcWires qc)) hlen
  cases hfu : firstUnbound (qc.instructions.map (bindInstruction b)) with
  | none =>
      exfalso
      have hall := (firstUnbound_eq_none _).mp hfu
      obtain ⟨i, hi, e, he, hne⟩ := h
      apply hne
      refine hall (bindInstruction b i) (List.mem_map_of_mem _ hi) (e.subst b) ?_
      have : e.subst b ∈ i.params.map (Expr.subst b) := List.mem_map_of_mem _ he
      simpa [bindInstruction] using this
  | some p =>
      refine ⟨p, ?_, ?_⟩
      · obtain ⟨i₁, hi₁, e₁, he₁, hp⟩ := firstUnbound_some _ p hfu
        obtain ⟨i, hi, rfl⟩ := List.mem_map.mp hi₁
        have he₂ : e₁ ∈ i.params.map (Expr.subst b) := by
          simpa [bindInstruction] using he₁
        obtain ⟨e, he, rfl⟩ := List.mem_map.mp he₂
        exact ⟨i, hi, e, he, hp⟩
      · simp only [invoke, hmw, hfu]

/-- C2 witness: an `rz` on a free parameter invoked with an empty binding. -/
theorem unbound_parameter_raises_value_error_witness :
    ∃ p : String,
      (∃ i ∈ ([⟨"rz", [Expr.param "t"], [0]⟩] : List Instruction), ∃ e ∈ i.params,
        p ∈ (e.subst []).freeParams) ∧
      invoke ⟨3, [⟨"rz", [Expr.param "t"], [0]⟩]⟩ [] none [] =
        .error (.valueError (notBoundMsg p)) :=
  unbound_parameter_raises_value_error ⟨3, [⟨"rz", [Expr.param "t"], [0]⟩]⟩ [] none []
    (by decide) (by decide)

/-- C3: a caller-supplied wires list whose length differs from the number of
qubits the loaded circuit acts on makes the call fail with a
`QuantumFunctionError` quoting the supplied length, with no operations
emitted, and `map_wires` makes the same count-equality check. -/
theorem wires_count_mismatch_raises
    (qc : QuantumCircuit) (b : List (String × ℚ)) (ws : List Int) (queue : List Op)
    (h : ws.length ≠ qc.numQubits) :
    invoke qc b (some ws) queue =
        .error (.quantumFunctionError (wiresMismatchMsg ws.length)) ∧
    map_wires (qcWires qc) ws =
        .error (.quantumFunctionError (wiresMismatchMsg ws.length)) := by
  have hcond : ¬ ((qcWires qc).length = ws.length) := by
    rw [length_qcWires]
    exact fun hc => h hc.symm
  have hmw : map_wires (qcWires qc) ws =
      .error (.quantumFunctionError (wiresMismatchMsg ws.length)) := by
    simp [map_wires, hcond]
  exact ⟨by simp only [invoke, Option.getD, hmw], hmw⟩

/-- C3 witness: two wires supplied for a three-qubit circuit. -/
theorem wires_count_mismatch_raises_witness :
    invoke ⟨3, [⟨"cswap", [], [0, 1, 2]⟩]⟩ [] (some [0, 1]) [] =
        .error (.quantumFunctionError (wiresMismatchMsg 2)) ∧
    map_wires (qcWires ⟨3, [⟨"cswap", [], [0, 1, 2]⟩]⟩) ([0, 1] : List Int) =
        .error (.quantumFunctionError (wiresMismatchMsg 2)) :=
  wires_count_mismatch_raises ⟨3, [⟨"cswap", [], [0, 1, 2]⟩]⟩ [] [0, 1] []
    (by decide)

/-- C4 counterexample: for the equal-length lists wires = [0, 0] and
qc_wires = [1, 2] the returned dictionary is [(0, 2)], whose size 1 differs
from the length 2 of wires, so the claim fails for lists with duplicate
labels. -/
theorem map_wires_duplicate_labels_cex :
    map_wires ([0, 0] : List Int) ([1, 2] : List Int) = .ok [(0, 2)] ∧
    ([((0 : Int), (2 : Int))] : List (Int × Int)).length ≠ 2 := by
  exact ⟨rfl, by decide⟩

/-- C4 (amended: the lists must be duplicate-free): for every pair of
equal-length duplicate-free lists, `map_wires` returns a dictionary whose
key list is exactly the caller wire labels, whose value list is exactly
qc_wires (so each element occurs exactly once), whose size equals the
length of wires, and which maps positionally. -/
theorem map_wires_is_one_to_one {α β : Type} [DecidableEq α] [DecidableEq β]
    (ws : List α) (qs : List β) (hlen : ws.length = qs.length)
    (hw : ws.Nodup) (hq : qs.Nodup) :
    ∃ d : List (α × β), map_wires ws qs = .ok d ∧
      d.map Prod.fst = ws ∧
      d.map Prod.snd = qs ∧
      d.length = ws.length ∧
      (∀ q ∈ qs, (d.map Prod.snd).count q = 1) ∧
      ∀ (k : Nat) (a : α) (bq : β), ws[k]? = some a → qs[k]? = some bq →
        alookup a d = some bq := by
  have hfst : ((ws.zip qs).map Prod.fst) = ws := by
    exact List.map_fst_zip ws qs (le_of_eq hlen)
  have hd : dictOf (ws.zip qs) = ws.zip qs :=
    dictOf_of_nodup_keys _ (by rw [hfst]; exact hw)
  refine ⟨ws.zip qs, ?_, hfst, ?_, ?_, ?_, ?_⟩
  · rw [map_wires_ok ws qs hlen, hd]
  · exact List.map_snd_zip ws qs (ge_of_eq hlen)
  · rw [List.length_zip, hlen, Nat.min_self]
  · intro q hqs
    rw [List.map_snd_zip ws qs (ge_of_eq hlen)]
    exact List.count_eq_one_of_mem hq hqs
  · intro k a bq ha hb
    exact alookup_zip_pos ws qs hw k a bq ha hb

/-- C4 witness: wires [1, 2, 0] against qc_wires [10, 11, 12]. -/
theorem map_wires_is_one_to_one_witness :
    ∃ d : List (Int × Int), map_wires ([1, 2, 0] : List Int) ([10, 11, 12] : List Int) = .ok d ∧
      d.map Prod.fst = [1, 2, 0] ∧
      d.map Prod.snd = [10, 11, 12] ∧
      d.length = ([1, 2, 0] : List Int).length ∧
      (∀ q ∈ ([10, 11, 12] : List Int), (d.map Prod.snd).count q = 1) ∧
      ∀ (k : Nat) (a : Int) (bq : Int),
        ([1, 2, 0] : List Int)[k]? = some a → ([10, 11, 12] : List Int)[k]? = some bq →
          alookup a d = some bq :=
  map_wires_is_one_to_one [1, 2, 0] [10, 11, 12] (by decide) (by decide) (by decide)

/-- C5: every emitted operation acts on the wire labels corresponding
positionally to the source instruction's ordered qubit operands: the k-th
operand becomes the k-th wire, and under a custom wires list source qubit q
is everywhere replaced by the caller's q-th label. -/
theorem emitted_wires_follow_operands
    (qc : QuantumCircuit) (b : List (String × ℚ)) (wopt : Option (List Int))
    (queue : List Op)
    (hw : (wopt.getD (qcWires qc)).length = qc.numQubits)
    (hsup : ∀ i ∈ qc.instructions, supported i = true)
    (hb : ∀ i ∈ qc.instructions, ∀ e ∈ i.params, (e.subst b).freeParams = [])
    (hq : ∀ i ∈ qc.instructions, ∀ q ∈ i.qubits, q < qc.numQubits) :
    ∃ ops : List Op, invoke qc b wopt queue = .ok (queue ++ ops, []) ∧
      ops.length = qc.instructions.length ∧
      ∀ (k : Nat) (i : Instruction), qc.instructions[k]? = some i →
        (ops[k]?).map Op.wires =
          some (i.qubits.map (fun q => ((wopt.getD (qcWires qc))[q]?).getD 0)) := by
  have hch := invoke_char_supported qc b wopt queue hw hsup hb
  refine ⟨_, by simpa using hch, by simp, ?_⟩
  intro k i h
  have hmem : i ∈ qc.instructions := List.getElem?_mem h
  rw [List.getElem?_map, h]
  simp only [Option.map_some']
  congr 1
  show (bindInstruction b i).qubits.map
      (mapWire (dictOf ((qcWires qc).zip (wopt.getD (qcWires qc))))) = _
  have hqu : (bindInstruction b i).qubits = i.qubits := rfl
  rw [hqu]
  refine List.map_congr_left ?_
  intro q hqi
  have hqn : q < qc.numQubits := hq i hmem q hqi
  have hlt : q < (wopt.getD (qcWires qc)).length := by rw [hw]; exact hqn
  have hsome : (wopt.getD (qcWires qc))[q]? = some ((wopt.getD (qcWires qc))[q]) :=
    List.getElem?_eq_getElem hlt
  rw [hsome]
  simp only [Option.getD_some]
  exact mapWire_of_zip qc.numQubits (wopt.getD (qcWires qc)) hw q hqn _ hsome

/-- C5 witness: `x q[0]; cx q[2],q[0]` on four qubits with default wires
emits PauliX on [0] and CNOT on [2, 0]. -/
theorem emitted_wires_follow_operands_witness :
    ∃ ops : List Op,
      invoke ⟨4, [⟨"x", [], [0]⟩, ⟨"cx", [], [2, 0]⟩]⟩ [] none [] = .ok ([] ++ ops, []) ∧
      ops.length = ([⟨"x", [], [0]⟩, ⟨"cx", [], [2, 0]⟩] : List Instruction).length ∧
      ∀ (k : Nat) (i : Instruction),
        ([⟨"x", [], [0]⟩, ⟨"cx", [], [2, 0]⟩] : List Instruction)[k]? = some i →
          (ops[k]?).map Op.wires =
            some (i.qubits.map (fun q =>
              (((none : Option (List Int)).getD
                  (qcWires ⟨4, [⟨"x", [], [0]⟩, ⟨"cx", [], [2, 0]⟩]⟩))[q]?).getD 0)) :=
  emitted_wires_follow_operands ⟨4, [⟨"x", [], [0]⟩, ⟨"cx", [], [2, 0]⟩]⟩ [] none []
    (by decide) (by decide) (by decide) (by decide)

/-- C6: for every supported instruction whose parameters are symbolic
expressions, calling the loaded template with a complete binding emits the
operation with the expression substituted under that binding — numerically,
evaluating the substituted expression in any field with a cosine equals
evaluating the original under the binding-extended environment — and a
circuit whose parameters were already bound before load emits the bound
values. -/
theorem symbolic_parameters_evaluate_under_binding
    (qc : QuantumCircuit) (b : List (String × ℚ))
    (hsup : ∀ i ∈ qc.instructions, supported i = true)
    (hb : ∀ i ∈ qc.instructions, ∀ e ∈ i.params, (e.subst b).freeParams = []) :
    (∃ ops : List Op, invoke qc b none [] = .ok (ops, []) ∧
      ∀ (k : Nat) (i : Instruction), qc.instructions[k]? = some i →
        (ops[k]?).map Op.params = some (i.params.map (Expr.subst b))) ∧
    (∀ (α : Type) [Field α] (cosF : α → α) (env : String → α) (e : Expr),
      (e.subst b).evalA cosF env = e.evalA cosF (bindEnv b env)) ∧
    invoke (bind_parameters qc b) [] none [] = invoke qc b none [] := by
  refine ⟨?_, ?_, ?_⟩
  · have hw : ((none : Option (List Int)).getD (qcWires qc)).length = qc.numQubits := by
      simp [length_qcWires]
    have hch := invoke_char_supported qc b none [] hw hsup hb
    refine ⟨_, by simpa using hch, ?_⟩
    intro k i h
    rw [List.getElem?_map, h]
    simp only [Option.map_some']
    rfl
  · intro α fα cosF env e
    exact Expr.evalA_subst cosF env b e
  · have hinsts : (bind_parameters qc b).instructions.map
        (bindInstruction ([] : List (String × ℚ)))
        = qc.instructions.map (bindInstruction b) := by
      simp only [bind_parameters, List.map_map]
      refine List.map_congr_left ?_
      intro i _
      exact bindInstruction_nil (bindInstruction b i)
    simp only [invoke]
    rw [hinsts]
    rfl

/-- C6 witness: `rx(a*cos(b)+c)` with the binding a=1/10, b=1/5, c=3/10. -/
theorem symbolic_parameters_evaluate_under_binding_witness :
    (∃ ops : List Op,
      invoke ⟨1, [⟨"rx",
          [Expr.add (Expr.mul (Expr.param "a") (Expr.cosE (Expr.param "b"))) (Expr.param "c")],
          [0]⟩]⟩
        [("a", 1/10), ("b", 1/5), ("c", 3/10)] none [] = .ok (ops, []) ∧
      ∀ (k : Nat) (i : Instruction),
        ([⟨"rx",
            [Expr.add (Expr.mul (Expr.param "a") (Expr.cosE (Expr.param "b"))) (Expr.param "c")],
            [0]⟩] : List Instruction)[k]? = some i →
          (ops[k]?).map Op.params =
            some (i.params.map (Expr.subst [("a", 1/10), ("b", 1/5), ("c", 3/10)]))) ∧
    (∀ (α : Type) [Field α] (cosF : α → α) (env : String → α) (e : Expr),
      (e.subst [("a", 1/10), ("b", 1/5), ("c", 3/10)]).evalA cosF env =
        e.evalA cosF (bindEnv [("a", 1/10), ("b", 1/5), ("c", 3/10)] env)) ∧
    invoke (bind_parameters
        ⟨1, [⟨"rx",
            [Expr.add (Expr.mul (Expr.param "a") (Expr.cosE (Expr.param "b"))) (Expr.param "c")],
            [0]⟩]⟩
        [("a", 1/10), ("b", 1/5), ("c", 3/10)]) [] none [] =
      invoke ⟨1, [⟨"rx",
          [Expr.add (Expr.mul (Expr.param "a") (Expr.cosE (Expr.param "b"))) (Expr.param "c")],
          [0]⟩]⟩
        [("a", 1/10), ("b", 1/5), ("c", 3/10)] none [] :=
  symbolic_parameters_evaluate_under_binding
    ⟨1, [⟨"rx",
        [Expr.add (Expr.mul (Expr.param "a") (Expr.cosE (Expr.param "b"))) (Expr.param "c")],
        [0]⟩]⟩
    [("a", 1/10), ("b", 1/5), ("c", 3/10)] (by decide) (by decide)

/-- C7: the adjoint variants `sdg`, `tdg`, `sxdg` are translated to the
adjoint of the corresponding base operation — `Adjoint(S)`, `Adjoint(T)`,
`Adjoint(SX)` — with no parameters, on the same wire. -/
theorem adjoint_variants_emit_adjoint
    (qc : QuantumCircuit) (b : List (String × ℚ)) (k q : Nat) (gname aname : String)
    (hsup : ∀ i ∈ qc.instructions, supported i = true)
    (hb : ∀ i ∈ qc.instructions, ∀ e ∈ i.params, (e.subst b).freeParams = [])
    (hq : q < qc.numQubits)
    (hpair : (gname, aname) ∈
      [("sdg", "Adjoint(S)"), ("tdg", "Adjoint(T)"), ("sxdg", "Adjoint(SX)")])
    (hk : qc.instructions[k]? = some ⟨gname, [], [q]⟩) :
    ∃ ops : List Op, invoke qc b none [] = .ok (ops, []) ∧
      ops[k]? = some ⟨aname, [], [Int.ofNat q]⟩ := by
  have hw : ((none : Option (List Int)).getD (qcWires qc)).length = qc.numQubits := by
    simp [length_qcWires]
  have hch := invoke_char_supported qc b none [] hw hsup hb
  refine ⟨_, by simpa using hch, ?_⟩
  rw [List.getElem?_map, hk]
  simp only [Option.map_some']
  have hwq : mapWire (dictOf ((qcWires qc).zip (qcWires qc))) q = Int.ofNat q := by
    have hg : (qcWires qc)[q]? = some (Int.ofNat q) := getElem?_defaultWires qc.numQubits q hq
    exact mapWire_of_zip qc.numQubits (qcWires qc) (length_qcWires qc) q hq _ hg
  have hmem : ((gname, aname) = ("sdg", "Adjoint(S)")) ∨
      ((gname, aname) = ("tdg", "Adjoint(T)")) ∨ ((gname, aname) = ("sxdg", "Adjoint(SX)")) := by
    simpa using hpair
  rcases hmem with hgn | hgn | hgn <;>
    · rw [Prod.mk.injEq] at hgn
      obtain ⟨rfl, rfl⟩ := hgn
      simp [translateInst, bindInstruction, hwq]
      rfl

/-- C7 witness: `sdg` on qubit 0 of a three-qubit circuit. -/
theorem adjoint_variants_emit_adjoint_witness :
    ∃ ops : List Op, invoke ⟨3, [⟨"sdg", [], [0]⟩]⟩ [] none [] = .ok (ops, []) ∧
      ops[0]? = some ⟨"Adjoint(S)", [], [Int.ofNat 0]⟩ :=
  adjoint_variants_emit_adjoint ⟨3, [⟨"sdg", [], [0]⟩]⟩ [] 0 0 "sdg" "Adjoint(S)"
    (by decide) (by decide) (by decide) (by decide) (by decide)

/-- C8: invoking a loaded template inside a recording context is
append-only: previously recorded operations are unchanged, the template's
operations are appended after them, an operation recorded afterwards
follows them, and a repeated call appends a fresh copy of the sequence. -/
theorem template_invocation_is_append_only
    (qc : QuantumCircuit) (b : List (String × ℚ)) (wopt : Option (List Int))
    (queue ops : List Op) (warns : List String)
    (h : invoke qc b wopt [] = .ok (ops, warns)) :
    invoke qc b wopt queue = .ok (queue ++ ops, warns) ∧
    (∀ k : Nat, k < queue.length → (queue ++ ops)[k]? = queue[k]?) ∧
    invoke qc b wopt (queue ++ ops) = .ok (queue ++ ops ++ ops, warns) ∧
    ∀ o : Op, (queue ++ ops ++ [o])[queue.length + ops.length]? = some o := by
  cases hmw : map_wires (qcWires qc) (wopt.getD (qcWires qc)) with
  | error e =>
      simp only [invoke, hmw] at h
      exact Except.noConfusion h
  | ok wm =>
      cases hfu : firstUnbound (qc.instructions.map (bindInstruction b)) with
      | some p =>
          simp only [invoke, hmw, hfu] at h
          exact Except.noConfusion h
      | none =>
          simp only [invoke, hmw, hfu] at h
          rw [emitLoop_char] at h
          simp only [List.nil_append] at h
          obtain ⟨hX, hY⟩ := Prod.mk.injEq _ _ _ _ |>.mp (Except.ok.inj h)
          subst hX
          subst hY
          refine ⟨?_, ?_, ?_, ?_⟩
          · simp only [invoke, hmw, hfu]
            rw [emitLoop_char]
            simp
          · intro k hk
            exact List.getElem?_append_left hk
          · simp only [invoke, hmw, hfu]
            rw [emitLoop_char]
            simp
          · intro o
            rw [← List.length_append]
            exact List.getElem?_concat_length _ o

/-- C8 witness: a PauliZ already on the queue, then a Hadamard template. -/
theorem template_invocation_is_append_only_witness :
    invoke ⟨1, [⟨"h", [], [0]⟩]⟩ [] none [⟨"PauliZ", [], [0]⟩] =
        .ok ([⟨"PauliZ", [], [0]⟩] ++ [⟨"Hadamard", [], [0]⟩], []) ∧
    (∀ k : Nat, k < ([⟨"PauliZ", [], [0]⟩] : List Op).length →
      (([⟨"PauliZ", [], [0]⟩] : List Op) ++ [⟨"Hadamard", [], [0]⟩])[k]? =
        ([⟨"PauliZ", [], [0]⟩] : List Op)[k]?) ∧
    invoke ⟨1, [⟨"h", [], [0]⟩]⟩ [] none ([⟨"PauliZ", [], [0]⟩] ++ [⟨"Hadamard", [], [0]⟩]) =
        .ok ([⟨"PauliZ", [], [0]⟩] ++ [⟨"Hadamard", [], [0]⟩] ++ [⟨"Hadamard", [], [0]⟩], []) ∧
    ∀ o : Op, (([⟨"PauliZ", [], [0]⟩] : List Op) ++ [⟨"Hadamard", [], [0]⟩] ++
        [o])[([⟨"PauliZ", [], [0]⟩] : List Op).length +
          ([⟨"Hadamard", [], [0]⟩] : List Op).length]? = some o :=
  template_invocation_is_append_only ⟨1, [⟨"h", [], [0]⟩]⟩ [] none
    [⟨"PauliZ", [], [0]⟩] [⟨"Hadamard", [], [0]⟩] [] (by rfl)

/-- C9 counterexample: `ch` has no entry in the name table, yet invoking
the loaded template appends a `QubitUnitary` operation (one parameter, on
the instruction's operand wires) for it and emits no warning, because the
instruction defines a matrix; so "no name-table entry" does not imply
warn-and-skip. -/
theorem ch_without_table_entry_emits_qubit_unitary_cex :
    invoke ⟨3, [⟨"ch", [], [0, 1]⟩]⟩ [] none [] =
      .ok ([⟨"QubitUnitary", [Expr.param "matrix:ch"], [0, 1]⟩], []) ∧
    alookup "ch" name_table = none ∧
    supported ⟨"ch", [], [0, 1]⟩ = false :=
  ⟨rfl, rfl, rfl⟩

/-- C9 (amended: restricted to instructions that are neither in the name
table nor matrix-convertible, such as Barrier or a measure instruction):
such an instruction makes the call emit a warning that it "is not
supported by PennyLane, and has not been added to the template" and append
no operation for it, while every supported instruction of the circuit is
still translated; a non-table instruction that does define a matrix is
instead re-emitted as a single QubitUnitary operation. -/
theorem unsupported_instructions_warn_and_are_skipped
    (qc : QuantumCircuit) (b : List (String × ℚ))
    (hb : ∀ i ∈ qc.instructions, ∀ e ∈ i.params, (e.subst b).freeParams = []) :
    ∃ (ops : List Op) (warns : List String), invoke qc b none [] = .ok (ops, warns) ∧
      ops = (qc.instructions.filter convertible).map
        (fun i => translateAny (defaultWireMap qc) (bindInstruction b i)) ∧
      warns = (qc.instructions.filter (fun i => ! convertible i)).map
        (fun i => notSupportedMsg i.name) ∧
      ops.length = (qc.instructions.filter convertible).length ∧
      (∀ i ∈ qc.instructions, supported i = false → has_matrix i.name = false →
        notSupportedMsg i.name ∈ warns) ∧
      (∀ i ∈ qc.instructions, supported i = false → has_matrix i.name = true →
        (translateAny (defaultWireMap qc) (bindInstruction b i)).name = "QubitUnitary") ∧
      ∀ nm : String, notSupportedMsg nm =
        "pennylane_qiskit.converter: The " ++ nm ++
          " instruction is not supported by PennyLane, and has not been added to the template." := by
  have hw : ((none : Option (List Int)).getD (qcWires qc)).length = qc.numQubits := by
    simp [length_qcWires]
  have hch := invoke_char qc b none [] hw hb
  refine ⟨_, _, by simpa using hch, rfl, rfl, by simp, ?_, ?_, fun nm => rfl⟩
  · intro i hi hns hnm
    refine List.mem_map_of_mem _ ?_
    refine List.mem_filter.mpr ⟨hi, ?_⟩
    simp [convertible, hns, hnm]
  · intro i hi hns _hm
    have hsi : supported (bindInstruction b i) = false := hns
    simp [translateAny, hsi, qubitUnitaryInst]

/-- C9 witness: a barrier (matrix-less) followed by a Hadamard. -/
theorem unsupported_instructions_warn_and_are_skipped_witness :
    ∃ (ops : List Op) (warns : List String),
      invoke ⟨3, [⟨"barrier", [], []⟩, ⟨"h", [], [0]⟩]⟩ [] none [] = .ok (ops, warns) ∧
      ops = (([⟨"barrier", [], []⟩, ⟨"h", [], [0]⟩] : List Instruction).filter convertible).map
        (fun i => translateAny (defaultWireMap ⟨3, [⟨"barrier", [], []⟩, ⟨"h", [], [0]⟩]⟩)
          (bindInstruction [] i)) ∧
      warns = (([⟨"barrier", [], []⟩, ⟨"h", [], [0]⟩] : List Instruction).filter
          (fun i => ! convertible i)).map (fun i => notSupportedMsg i.name) ∧
      ops.length = (([⟨"barrier", [], []⟩, ⟨"h", [], [0]⟩] : List Instruction).filter
        convertible).length ∧
      (∀ i ∈ ([⟨"barrier", [], []⟩, ⟨"h", [], [0]⟩] : List Instruction),
        supported i = false → has_matrix i.name = false →
          notSupportedMsg i.name ∈ warns) ∧
      (∀ i ∈ ([⟨"barrier", [], []⟩, ⟨"h", [], [0]⟩] : List Instruction),
        supported i = false → has_matrix i.name = true →
          (translateAny (defaultWireMap ⟨3, [⟨"barrier", [], []⟩, ⟨"h", [], [0]⟩]⟩)
            (bindInstruction [] i)).name = "QubitUnitary") ∧
      ∀ nm : String, notSupportedMsg nm =
        "pennylane_qiskit.converter: The " ++ nm ++
          " instruction is not supported by PennyLane, and has not been added to the template." :=
  unsupported_instructions_warn_and_are_skipped ⟨3, [⟨"barrier", [], []⟩, ⟨"h", [], [0]⟩]⟩ []
    (by decide)

/-- C10 counterexample: with the ibmqx_token keyword argument set to the
empty string (so a token is "supplied" in the claim's sense), no active
account and no stored account, `connect` still raises the error, because
Python `or` treats the empty string as falsy. -/
theorem connect_empty_token_cex :
    connect ⟨some "", none⟩ ⟨none, none⟩ ⟨none, none⟩ = .error noAccountMsg ∧
    (some "" : Option String) ≠ none :=
  ⟨rfl, by simp⟩

/-- C10 (amended: a token counts as supplied only when it is non-empty
after Python `or` resolution of the kwarg and the environment variable):
`connect` raises IBMQAccountError with "No active IBM Q account, and no
IBM Q token provided." exactly when the resolved token is falsy, no account
is active, and loading a stored account fails; otherwise it returns
normally, and a supplied token equal to the active account's token leaves
the account state unchanged. -/
theorem connect_raises_iff_no_usable_account
    (kw : IBMQKwargs) (env : IBMQEnv) (st : IBMQState) :
    (connect kw env st = .error noAccountMsg ↔
      (truthy (pyOr kw.ibmqx_token env.token_var) = false ∧
        st.active = none ∧ st.stored = none)) ∧
    ((truthy (pyOr kw.ibmqx_token env.token_var) = true ∨
        st.active ≠ none ∨ st.stored ≠ none) →
      ∃ st₂ : IBMQState, connect kw env st = .ok st₂) ∧
    (∀ a : String, st.active = some a →
      pyOr kw.ibmqx_token env.token_var = some a →
      connect kw env st = .ok st) := by
  refine ⟨?_, ?_, ?_⟩
  · cases htr : truthy (pyOr kw.ibmqx_token env.token_var) with
    | false =>
        cases hac : st.active with
        | none =>
            cases hst : st.stored with
            | none => simp [connect, htr, hac, hst]
            | some t => simp [connect, htr, hac, hst]
        | some a => simp [connect, htr, hac]
    | true =>
        cases hac : st.active with
        | none => simp [connect, htr, hac]
        | some a =>
            by_cases he : a = (pyOr kw.ibmqx_token env.token_var).getD ""
            · simp [connect, htr, hac, he]
            · simp [connect, htr, hac, he]
  · intro hcase
    cases htr : truthy (pyOr kw.ibmqx_token env.token_var) with
    | true =>
        cases hac : st.active with
        | none =>
            exact ⟨enable_account ((pyOr kw.ibmqx_token env.token_var).getD "") st,
              by simp [connect, htr, hac]⟩
        | some a =>
            by_cases he : a = (pyOr kw.ibmqx_token env.token_var).getD ""
            · exact ⟨st, by simp [connect, htr, hac, he]⟩
            · exact ⟨enable_account ((pyOr kw.ibmqx_token env.token_var).getD "")
                (disable_account st), by simp [connect, htr, hac, he]⟩
    | false =>
        cases hac : st.active with
        | some a => exact ⟨st, by simp [connect, htr, hac]⟩
        | none =>
            cases hst : st.stored with
            | some t => exact ⟨{ st with active := some t }, by simp [connect, htr, hac, hst]⟩
            | none =>
                rcases hcase with hcow | hcow | hcow
                · rw [htr] at hcow
                  exact absurd hcow (by simp)
                · exact absurd hac hcow
                · exact absurd hst hcow
  · intro a hac htok
    by_cases he : a = ""
    · subst he
      have htr : truthy (pyOr kw.ibmqx_token env.token_var) = false := by
        rw [htok]
        simp [truthy]
      simp [connect, htr, hac]
    · have htr : truthy (pyOr kw.ibmqx_token env.token_var) = true := by
        rw [htok]
        simp [truthy, he]
      have hgd : (pyOr kw.ibmqx_token env.token_var).getD "" = a := by
        rw [htok]
        rfl
      simp [connect, htr, hac, hgd]

/-- C10 witness: a supplied token equal to the active account's token
leaves the account state unchanged. -/
theorem connect_raises_iff_no_usable_account_witness :
    connect ⟨some "abc", none⟩ ⟨none, none⟩ ⟨some "abc", some "xyz"⟩ =
      .ok ⟨some "abc", some "xyz"⟩ :=
  (connect_raises_iff_no_usable_account ⟨some "abc", none⟩ ⟨none, none⟩
      ⟨some "abc", some "xyz"⟩).2.2 "abc" rfl rfl

end PennylaneQiskit
